import Mathlib

/-!
Verification of the snailfish-number program (2021 day 18).

The program stores a snailfish number as a graph (`StableDiGraph<PairNode, EdgeType>`
plus a `root_idx`); by construction this graph is always a rooted binary tree:
every `PairRoot` node has exactly one `Child(Left)` and one `Child(Right)` edge,
every non-root node has exactly one `Parent` edge, and `Leaf` nodes have no
children.  We embed such trees as the inductive type `PTree` below (this is the
same shape as the program's `InputPair` type, from which the graph is built).
A `NodeIndex` of the graph is embedded as the path of `Direction`s leading from
the root to the node.
-/

namespace Day18

inductive Direction where
  | Left : Direction
  | Right : Direction
deriving DecidableEq, Repr

/-- Models `Direction::get_other`. -/
def Direction.get_other : Direction → Direction
  | .Left => .Right
  | .Right => .Left

/-- The node payload type `PairNode` of the graph. -/
inductive PairNode where
  | PairRoot : PairNode
  | Leaf (n : Nat) : PairNode
deriving DecidableEq, Repr

/-- A well-formed problem tree (the shape of `InputPair`, and of every graph the
program builds: each `PairRoot` has exactly a left and a right child).
Leaf values are `u32` in the source; the program's arithmetic on them stays far
below `2^32` for the inputs the claims quantify over, and we model the values
as `Nat`. -/
inductive PTree where
  | leaf (n : Nat) : PTree
  | pair (l r : PTree) : PTree
deriving DecidableEq, Repr

/-- A node index, embedded as the path from the root to the node. -/
abbrev Path := List Direction

/-- The subtree rooted at the node addressed by a path (`none` when no such
node exists). -/
def subtreeAt : PTree → Path → Option PTree
  | t, [] => some t
  | .pair l _, .Left :: p => subtreeAt l p
  | .pair _ r, .Right :: p => subtreeAt r p
  | .leaf _, _ :: _ => none

/-- The node payload (`node_weight`) at the root of a subtree. -/
def nodeOf : PTree → PairNode
  | .leaf n => .Leaf n
  | .pair _ _ => .PairRoot

def PTree.isPairRoot : PTree → Bool
  | .pair _ _ => true
  | .leaf _ => false

/-- Models `ProblemTree::get_child`: a node's child in a direction exists exactly when
the node is a `PairRoot` (the graph stores a `Child(direction)` edge for each
side of every pair). -/
def get_child (t : PTree) (node_idx : Path) (direction : Direction) : Option Path :=
  match subtreeAt t node_idx with
  | some (.pair _ _) => some (node_idx ++ [direction])
  | _ => none

/-- Models `ProblemTree::get_parent`: follow the unique `Parent` edge; the root has
none.  In path terms this drops the last step of the path. -/
def get_parent (node_idx : Path) : Option Path :=
  match node_idx with
  | [] => none
  | _ :: _ => some node_idx.dropLast

/-- Replace the subtree at a path (used to model in-place writes through
`node_weight_mut` and the child insertions of `split_node`). -/
def replaceAt : PTree → Path → PTree → Option PTree
  | _, [], s => some s
  | .pair l r, .Left :: p, s => (replaceAt l p s).map (fun l' => .pair l' r)
  | .pair l r, .Right :: p, s => (replaceAt r p s).map (fun r' => .pair l r')
  | .leaf _, _ :: _, _ => none

/-- Total number of nodes of a tree. -/
def PTree.size : PTree → Nat
  | .leaf _ => 1
  | .pair l r => l.size + r.size + 1

/-- Sum of all leaf values of a tree. -/
def leafSum : PTree → Nat
  | .leaf n => n
  | .pair l r => leafSum l + leafSum r

/-- Models `ProblemTree::find_node_to_reduce_below_or_at`.  The source fetches the two
children with `get_child` and recurses into them via `and_then` (so at a `Leaf`
both candidate lookups yield `None`), then prefers the left candidate, then the
right candidate, and only then tests the node itself against the criteria.
The returned path is relative to `below_idx`. -/
def find_node_to_reduce_below_or_at (t : PTree) (node_depth : Nat)
    (criteria : PairNode → Nat → Bool) : Option Path :=
  match t with
  | .leaf n =>
    if criteria (.Leaf n) node_depth then some [] else none
  | .pair l r =>
    let left_candidate :=
      (find_node_to_reduce_below_or_at l (node_depth + 1) criteria).map
        (fun p => Direction.Left :: p)
    let right_candidate :=
      (find_node_to_reduce_below_or_at r (node_depth + 1) criteria).map
        (fun p => Direction.Right :: p)
    if left_candidate.isSome then left_candidate
    else if right_candidate.isSome then right_candidate
    else if criteria .PairRoot node_depth then some [] else none

def PairNode.is_pair_root : PairNode → Bool
  | .PairRoot => true
  | .Leaf _ => false

/-- The explode criteria closure: `depth >= 4 && matches!(node, PairNode::PairRoot)`. -/
def explodeCriteria : PairNode → Nat → Bool :=
  fun node depth => decide (4 ≤ depth) && node.is_pair_root

/-- The split criteria closure: a `Leaf(n)` with `n >= 10`. -/
def splitCriteria : PairNode → Nat → Bool :=
  fun node _ =>
    match node with
    | .Leaf n => decide (10 ≤ n)
    | .PairRoot => false

/-- Models `ProblemTree::find_node_to_explode`. -/
def find_node_to_explode (t : PTree) : Option Path :=
  find_node_to_reduce_below_or_at t 0 explodeCriteria

/-- Models `ProblemTree::find_node_to_split`. -/
def find_node_to_split (t : PTree) : Option Path :=
  find_node_to_reduce_below_or_at t 0 splitCriteria

/-- All nodes of a tree listed in post-order (left subtree, right subtree,
node), with the path to each node and its depth. -/
def postorderEntries : PTree → Nat → List (Path × PairNode × Nat)
  | .leaf n, d => [([], .Leaf n, d)]
  | .pair l r, d =>
    (postorderEntries l (d + 1)).map (fun e => (Direction.Left :: e.1, e.2)) ++
      (postorderEntries r (d + 1)).map (fun e => (Direction.Right :: e.1, e.2)) ++
      [([], .PairRoot, d)]

/-- The first node in post-order (left subtree before right subtree, children
before their parent) satisfying the criteria. -/
def postorderFirstMatch (t : PTree) (d : Nat) (criteria : PairNode → Nat → Bool) :
    Option Path :=
  ((postorderEntries t d).find? (fun e => criteria e.2.1 e.2.2)).map (fun e => e.1)

/-- Spec-side definition, from the claim's words: all nodes in pre-order (node
first, then left subtree, then right subtree), so that a node precedes its own
descendants and the left subtree precedes the right one. -/
def preorderEntries : PTree → Nat → List (Path × PairNode × Nat)
  | .leaf n, d => [([], .Leaf n, d)]
  | .pair l r, d =>
    ([], .PairRoot, d) ::
      ((preorderEntries l (d + 1)).map (fun e => (Direction.Left :: e.1, e.2)) ++
        (preorderEntries r (d + 1)).map (fun e => (Direction.Right :: e.1, e.2)))

/-- Spec-side definition, from the claim's words: the first match in leftmost,
shallowest-qualifying (pre-order, left-biased) order. -/
def preorderFirstMatch (t : PTree) (d : Nat) (criteria : PairNode → Nat → Bool) :
    Option Path :=
  ((preorderEntries t d).find? (fun e => criteria e.2.1 e.2.2)).map (fun e => e.1)

/-- Is the node at a path a leaf? -/
def isLeafAt (t : PTree) (p : Path) : Bool :=
  match subtreeAt t p with
  | some (.leaf _) => true
  | _ => false

/-- The closure `have_found_root_like_node` of `get_leaf_in_relative_direction`:
the cursor's child on the search side must not be the node we came up from, and
both of the cursor's children must be `PairRoot`s.  The source unwraps both
child lookups; at every call site the cursor addresses a pair node (it is the
parent of a valid node), so the lookups cannot fail — a failed lookup is mapped
to `false` here. -/
def have_found_root_like_node (t : PTree) (direction : Direction)
    (prev_cursor cursor : Path) : Bool :=
  match subtreeAt t cursor with
  | some (.pair l r) =>
    (match direction with
     | .Right => decide (prev_cursor ≠ cursor ++ [Direction.Right])
     | .Left => decide (prev_cursor ≠ cursor ++ [Direction.Left])) &&
      l.isPairRoot && r.isPairRoot
  | _ => false

/-- The final descent of `get_leaf_in_relative_direction`: starting below the
flip-around node, repeatedly step to the child opposite to the search
direction while one exists (i.e. while the current node is a pair), returning
the relative path walked.  `d` here is already `direction.get_other()`. -/
def descendPath : PTree → Direction → Path
  | .pair l _, .Left => Direction.Left :: descendPath l .Left
  | .pair _ r, .Right => Direction.Right :: descendPath r .Right
  | .leaf _, _ => []

/-- The `while` loop of `get_leaf_in_relative_direction` together with the
flip-around descent after it.  The loop state is `(prev_cursor, cursor)`;
since each iteration ascends one level, `cursor` is always the parent of
`prev_cursor`, so the state is determined by `prev_cursor` alone.  We pass
`prev_cursor` reversed (deepest edge first) so the ascent is structural
recursion; the `[]` case is the `?` on `self.get_parent(cursor)` returning
`None` at the root. -/
def glird_loop (t : PTree) (direction : Direction) : List Direction → Option Path
  | [] => none
  | last :: rest =>
    let prev_cursor : Path := (last :: rest).reverse
    let cursor : Path := rest.reverse
    if have_found_root_like_node t direction prev_cursor cursor then
      match get_child t cursor direction with
      | none => none
      | some flip_around_node =>
        if flip_around_node = prev_cursor then none
        else
          match subtreeAt t flip_around_node with
          | some sub => some (flip_around_node ++ descendPath sub direction.get_other)
          | none => none
    else
      match get_child t cursor direction with
      | some directional_child =>
        if decide (directional_child ≠ cursor) && isLeafAt t directional_child then
          some directional_child
        else glird_loop t direction rest
      | none => glird_loop t direction rest

/-- Models `ProblemTree::get_leaf_in_relative_direction`. -/
def get_leaf_in_relative_direction (t : PTree) (node_idx : Path)
    (direction : Direction) : Option Path :=
  glird_loop t direction node_idx.reverse

/-- Spec-side definition, from the claim's words (here for `direction = Left`;
`Right` is the mirror image): walk up to the first ancestor reachable via a
right-child edge — i.e. strip the trailing left edges from the path and then
one right edge — then descend into that ancestor's left subtree as far right
as possible.  `none` when no ancestor is reachable via such an edge (the node
is at the extreme edge of the tree). -/
def specNearestTarget (t : PTree) (node_idx : Path) (direction : Direction) :
    Option Path :=
  match node_idx.reverse.dropWhile (fun d => d == direction) with
  | [] => none
  | _ :: srev =>
    let base := srev.reverse ++ [direction]
    match subtreeAt t base with
    | some sub => some (base ++ descendPath sub direction.get_other)
    | none => none

/-- Models `ProblemTree::explode_in_relative_direction`.  Returns `none` on the two
`panic!` paths (a non-leaf child of the exploding node, or a non-leaf result
of the directional leaf lookup), and otherwise the updated tree together with
the function's boolean result. -/
def explode_in_relative_direction (t : PTree) (to_explode : Path)
    (direction : Direction) : Option (PTree × Bool) :=
  match get_child t to_explode direction with
  | none => none
  | some child_idx =>
    match subtreeAt t child_idx with
    | some (.leaf explode_value) =>
      match get_leaf_in_relative_direction t to_explode direction with
      | some relative_direction_node_idx =>
        if relative_direction_node_idx = to_explode then some (t, false)
        else
          match subtreeAt t relative_direction_node_idx with
          | some (.leaf n) =>
            (replaceAt t relative_direction_node_idx (.leaf (n + explode_value))).map
              (fun t' => (t', true))
          | _ => none
      | none => some (t, false)
    | _ => none

/-- Models `get_split_values`. -/
def get_split_values (n : Nat) : Nat × Nat :=
  (n / 2, if n % 2 == 0 then n / 2 else n / 2 + 1)

/-- Models `ProblemTree::split_node`: the leaf becomes a `PairRoot` and the two split
values are inserted as its left and right leaf children.  `none` models the
`panic!` on a non-leaf node. -/
def split_node (t : PTree) (node_idx : Path) : Option PTree :=
  match subtreeAt t node_idx with
  | some (.leaf n) =>
    replaceAt t node_idx
      (.pair (.leaf (get_split_values n).1) (.leaf (get_split_values n).2))
  | _ => none

/-- The explode branch of the `reduce` loop body: explode towards the left,
then towards the right, then remove the exploded node's two leaf children and
overwrite the node itself with `Leaf(0)`.  Both children are leaves whenever
this runs (each `explode_in_relative_direction` call reads its child as a leaf
and neither call modifies the exploding node's subtree), so removing the leaf
children and zeroing the node is replacing the pair by `Leaf(0)`; a non-leaf
child is mapped to `none` like the panics it would have caused. -/
def explode_action (t : PTree) (to_explode : Path) : Option PTree :=
  match explode_in_relative_direction t to_explode .Left with
  | none => none
  | some (t1, _) =>
    match explode_in_relative_direction t1 to_explode .Right with
    | none => none
    | some (t2, _) =>
      match subtreeAt t2 to_explode with
      | some (.pair (.leaf _) (.leaf _)) => replaceAt t2 to_explode (.leaf 0)
      | _ => none

/-- What a single iteration of the `reduce` loop did. -/
inductive Action where
  | exploded (p : Path) : Action
  | didSplit (p : Path) : Action
deriving DecidableEq, Repr

/-- Result of a single iteration of the `reduce` loop. -/
inductive StepOut where
  | done : StepOut
  | panicked : StepOut
  | stepped (a : Action) (t : PTree) : StepOut
deriving DecidableEq, Repr

/-- One iteration of the `while` loop of `ProblemTree::reduce`: both candidates
are computed up front; if an explode candidate exists the explode is performed
and the loop `continue`s; otherwise, if a split candidate exists it is split;
otherwise no action was performed and the loop exits (`done`). -/
def reduceStep (t : PTree) : StepOut :=
  let explode_candidate := find_node_to_explode t
  let split_candidate := find_node_to_split t
  match explode_candidate with
  | some to_explode =>
    match explode_action t to_explode with
    | some t' => .stepped (.exploded to_explode) t'
    | none => .panicked
  | none =>
    match split_candidate with
    | some to_split =>
      match split_node t to_split with
      | some t' => .stepped (.didSplit to_split) t'
      | none => .panicked
    | none => .done

/-- Models `ProblemTree::reduce`, with explicit fuel for the unbounded `while` loop:
`some t'` exactly when the loop exits within `fuel` iterations (and no panic
occurred), in which case `t'` is the tree it left behind. -/
def reduceFuel : Nat → PTree → Option PTree
  | 0, _ => none
  | fuel + 1, t =>
    match reduceStep t with
    | .done => some t
    | .panicked => none
    | .stepped _ t' => reduceFuel fuel t'

/-- The worklist loop of `ProblemTree::magnitude`.  The source pops
`(multiplier, node_index)` items off a stack; for a `PairRoot` it pushes the
left child with multiplier `3 * n` and the right child with `2 * n` (the
iteration order of the two child edges is unspecified by `petgraph` and does
not affect the accumulated total, which is a sum; we pop the left child
first), and for a `Leaf` it adds `n * value` to the running total.  The
worklist carries the subtree reachable from each pushed node index. -/
def magnitude_loop (to_visit : List (Nat × PTree)) (total : Nat) : Nat :=
  match to_visit with
  | [] => total
  | (n, .leaf visiting_value) :: rest => magnitude_loop rest (total + n * visiting_value)
  | (n, .pair l r) :: rest => magnitude_loop ((3 * n, l) :: (2 * n, r) :: rest) total
termination_by (to_visit.map (fun e => e.2.size)).sum
decreasing_by
  all_goals simp [PTree.size]
  omega

/-- Models `ProblemTree::magnitude`: the worklist starts as `vec![(1, root)]` and the
total as `0`. -/
def magnitude (t : PTree) : Nat :=
  magnitude_loop [(1, t)] 0

/-- Spec-side reference definition, from the spec's words: `magnitude` is
`3 * magnitude(left) + 2 * magnitude(right)` for a `PairRoot` and the stored
value for a `LeafNode`. -/
def magnitude_rec : PTree → Nat
  | .leaf n => n
  | .pair l r => 3 * magnitude_rec l + 2 * magnitude_rec r

/-- Models that `ProblemTree::magnitude` takes `&mut self`; this version threads the
borrowed tree state through the loop exactly as the borrow lives across it,
returning the total together with the state the borrow leaves behind.  The
loop body only ever reads (`node_weight`, `neighbors`, `find_edge`,
`edge_weight`); it contains no write to the graph, which is why no clause
below produces a modified state. -/
def magnitude_loop_mut (graph : PTree) (to_visit : List (Nat × PTree)) (total : Nat) :
    Nat × PTree :=
  match to_visit with
  | [] => (total, graph)
  | (n, .leaf visiting_value) :: rest =>
    magnitude_loop_mut graph rest (total + n * visiting_value)
  | (n, .pair l r) :: rest =>
    magnitude_loop_mut graph ((3 * n, l) :: (2 * n, r) :: rest) total
termination_by (to_visit.map (fun e => e.2.size)).sum
decreasing_by
  all_goals simp [PTree.size]
  omega

/-- Models `magnitude` as a state transformer on the mutably borrowed tree. -/
def magnitude_mut (t : PTree) : Nat × PTree :=
  magnitude_loop_mut t [(1, t)] 0

/-- The numeric value of a string of decimal digits (what
`str::parse::<u32>` computes on the digit run matched by `digit1`). -/
def digitsToNat (ds : List Char) : Nat :=
  ds.foldl (fun acc c => acc * 10 + (c.toNat - '0'.toNat)) 0

/-- Models `parse_snailfish_problem_leaf`: `map_res(digit1, str::parse)`.  `digit1`
consumes a maximal non-empty run of ASCII digits; `str::parse::<u32>` then
fails exactly when the value overflows `u32` (no sign or other characters can
occur in a digit run). -/
def parse_snailfish_problem_leaf (chunk : List Char) : Option (PTree × List Char) :=
  if (chunk.takeWhile Char.isDigit).isEmpty then none
  else if digitsToNat (chunk.takeWhile Char.isDigit) < 4294967296 then
    some (.leaf (digitsToNat (chunk.takeWhile Char.isDigit)), chunk.dropWhile Char.isDigit)
  else none

/-- Models `parse_snailfish_problem_pair`:
`delimited(char('['), separated_pair(alt((pair, leaf)), char(','), alt((pair, leaf))), char(']'))`.
All failures of the nom combinators used here are recoverable errors, so
`alt` backtracks on them; `Option` models success/failure faithfully.  The
source recursion is bounded by the input (each nested call first consumes a
`'['`); we make that bound explicit as fuel, one unit per `'['. -/
def parse_snailfish_problem_pair : Nat → List Char → Option (PTree × List Char)
  | 0, _ => none
  | fuel + 1, chunk =>
    match chunk with
    | '[' :: rest =>
      match
        (match parse_snailfish_problem_pair fuel rest with
         | some res => some res
         | none => parse_snailfish_problem_leaf rest) with
      | none => none
      | some (pair1, rem1) =>
        match rem1 with
        | ',' :: rest2 =>
          match
            (match parse_snailfish_problem_pair fuel rest2 with
             | some res => some res
             | none => parse_snailfish_problem_leaf rest2) with
          | none => none
          | some (pair2, rem2) =>
            match rem2 with
            | ']' :: rem3 => some (.pair pair1 pair2, rem3)
            | _ => none
        | _ => none
    | _ => none

/-- The `alt((parse_snailfish_problem_pair, parse_snailfish_problem_leaf))`
combinator (the inner matches of `parse_snailfish_problem_pair` are exactly
this function at the smaller fuel). -/
def parse_snailfish_value (fuel : Nat) (chunk : List Char) : Option (PTree × List Char) :=
  match parse_snailfish_problem_pair fuel chunk with
  | some res => some res
  | none => parse_snailfish_problem_leaf chunk

/-- Models `parse_snailfish_problem`: `terminated(parse_snailfish_problem_pair, eof)` —
the whole input must be consumed by a single pair expression.  The fuel
`input.length + 1` can never be exhausted, since each recursive call consumes
at least one character first. -/
def parse_snailfish_problem (input : List Char) : Option PTree :=
  match parse_snailfish_problem_pair (input.length + 1) input with
  | some (res_pair, []) => some res_pair
  | _ => none

/-- Spec-side definition, from the claim's words: the language of the grammar
`Value ::= Integer | "[" Value "," Value "]"` with integers non-negative
decimal literals. -/
inductive SpecValue : List Char → Prop where
  | int (ds : List Char) : ds ≠ [] → (∀ c ∈ ds, c.isDigit = true) → SpecValue ds
  | pair (a b : List Char) : SpecValue a → SpecValue b →
      SpecValue ('[' :: (a ++ ',' :: (b ++ [']'])))

/-- Spec-side definition for the amended claim: the same grammar, with integer
literals restricted to values representable in `u32`. -/
inductive SpecValueB : List Char → Prop where
  | int (ds : List Char) : ds ≠ [] → (∀ c ∈ ds, c.isDigit = true) →
      digitsToNat ds < 4294967296 → SpecValueB ds
  | pair (a b : List Char) : SpecValueB a → SpecValueB b →
      SpecValueB ('[' :: (a ++ ',' :: (b ++ [']'])))

/-- Spec-side definition for the amended claim: a complete pair expression
(the top-level production the program actually requires). -/
def SpecPairExpr (cs : List Char) : Prop :=
  ∃ a b, SpecValueB a ∧ SpecValueB b ∧ cs = '[' :: (a ++ ',' :: (b ++ [']']))

/-! ### Basic path lemmas -/

@[simp] theorem subtreeAt_nil (t : PTree) : subtreeAt t [] = some t := by
  cases t <;> rfl

@[simp] theorem replaceAt_nil (t s : PTree) : replaceAt t [] s = some s := by
  cases t <;> rfl

theorem subtreeAt_append (p q : Path) :
    ∀ t, subtreeAt t (p ++ q) = (subtreeAt t p).bind (fun u => subtreeAt u q) := by
  induction p with
  | nil => intro t; simp [subtreeAt]
  | cons d p' ih =>
    intro t
    cases t with
    | leaf n => cases d <;> simp [subtreeAt]
    | pair l r => cases d <;> simp [subtreeAt, ih]

theorem subtreeAt_child {t : PTree} {p : Path} {l r : PTree}
    (h : subtreeAt t p = some (.pair l r)) (d : Direction) :
    subtreeAt t (p ++ [d]) = some (match d with | .Left => l | .Right => r) := by
  rw [subtreeAt_append, h]
  cases d <;> simp [subtreeAt]

theorem subtreeAt_parent_pair {t : PTree} {p : Path} {d : Direction} {c : PTree}
    (h : subtreeAt t (p ++ [d]) = some c) :
    ∃ l r, subtreeAt t p = some (.pair l r) ∧ (match d with | .Left => l | .Right => r) = c := by
  rw [subtreeAt_append] at h
  cases hu : subtreeAt t p with
  | none => rw [hu] at h; simp at h
  | some u =>
    rw [hu] at h
    cases u with
    | leaf n => cases d <;> simp [subtreeAt] at h
    | pair l r => exact ⟨l, r, rfl, by cases d <;> simpa [subtreeAt] using h⟩

/-! ### The candidate search is a post-order, left-biased first match -/

theorem find_pair_eq (l r : PTree) (d : Nat) (c : PairNode → Nat → Bool) :
    find_node_to_reduce_below_or_at (.pair l r) d c =
      match find_node_to_reduce_below_or_at l (d + 1) c with
      | some p => some (Direction.Left :: p)
      | none =>
        match find_node_to_reduce_below_or_at r (d + 1) c with
        | some p => some (Direction.Right :: p)
        | none => if c .PairRoot d then some [] else none := by
  cases hl : find_node_to_reduce_below_or_at l (d + 1) c <;>
    cases hr : find_node_to_reduce_below_or_at r (d + 1) c <;>
      simp [find_node_to_reduce_below_or_at, hl, hr]

theorem find_eq_postorderFirstMatch (t : PTree) :
    ∀ (d : Nat) (c : PairNode → Nat → Bool),
      find_node_to_reduce_below_or_at t d c = postorderFirstMatch t d c := by
  induction t with
  | leaf n =>
    intro d c
    simp only [find_node_to_reduce_below_or_at, postorderFirstMatch, postorderEntries,
      List.find?_cons, List.find?_nil]
    cases hc : c (.Leaf n) d <;> simp [hc]
  | pair l r ihl ihr =>
    intro d c
    rw [find_pair_eq, ihl, ihr]
    simp only [postorderFirstMatch, postorderEntries, List.find?_append, List.find?_map]
    have hcompL : ((fun e : Path × PairNode × Nat => c e.2.1 e.2.2) ∘
        (fun e : Path × PairNode × Nat => (Direction.Left :: e.1, e.2))) =
        (fun e : Path × PairNode × Nat => c e.2.1 e.2.2) := rfl
    have hcompR : ((fun e : Path × PairNode × Nat => c e.2.1 e.2.2) ∘
        (fun e : Path × PairNode × Nat => (Direction.Right :: e.1, e.2))) =
        (fun e : Path × PairNode × Nat => c e.2.1 e.2.2) := rfl
    rw [hcompL, hcompR]
    cases hL : List.find? (fun e : Path × PairNode × Nat => c e.2.1 e.2.2)
        (postorderEntries l (d + 1)) with
    | some e => simp [hL, Option.or]
    | none =>
      cases hR : List.find? (fun e : Path × PairNode × Nat => c e.2.1 e.2.2)
          (postorderEntries r (d + 1)) with
      | some e => simp [hL, hR, Option.or]
      | none =>
        simp only [hL, hR, Option.map_none, Option.or_none, Option.none_or,
          List.find?_cons, List.find?_nil]
        cases hc : c .PairRoot d <;> simp [hc]

/-! ### Completeness and soundness of the candidate search -/

theorem find_none_complete :
    ∀ (t : PTree) (d : Nat) (c : PairNode → Nat → Bool),
      find_node_to_reduce_below_or_at t d c = none →
      ∀ (q : Path) (s : PTree), subtreeAt t q = some s →
        c (nodeOf s) (d + q.length) = false := by
  intro t
  induction t with
  | leaf n =>
    intro d c h q s hq
    cases q with
    | nil =>
      simp [subtreeAt] at hq
      subst hq
      simp only [find_node_to_reduce_below_or_at] at h
      cases hc : c (.Leaf n) d
      · simpa [nodeOf] using hc
      · rw [hc] at h; simp at h
    | cons d1 q' => cases d1 <;> simp [subtreeAt] at hq
  | pair l r ihl ihr =>
    intro d c h q s hq
    rw [find_pair_eq] at h
    cases hL : find_node_to_reduce_below_or_at l (d + 1) c with
    | some p => rw [hL] at h; simp at h
    | none =>
      rw [hL] at h
      cases hR : find_node_to_reduce_below_or_at r (d + 1) c with
      | some p => rw [hR] at h; simp at h
      | none =>
        rw [hR] at h
        have hcself : c .PairRoot d = false := by
          cases hc : c .PairRoot d
          · rfl
          · rw [hc] at h; simp at h
        cases q with
        | nil =>
          simp [subtreeAt] at hq
          subst hq
          simpa [nodeOf] using hcself
        | cons d1 q' =>
          have hlen : d + (d1 :: q').length = (d + 1) + q'.length := by
            simp; omega
          rw [hlen]
          cases d1 with
          | Left => exact ihl (d + 1) c hL q' s (by simpa [subtreeAt] using hq)
          | Right => exact ihr (d + 1) c hR q' s (by simpa [subtreeAt] using hq)

theorem find_some_sound :
    ∀ (t : PTree) (d : Nat) (c : PairNode → Nat → Bool) (p : Path),
      find_node_to_reduce_below_or_at t d c = some p →
      ∃ s, subtreeAt t p = some s ∧ c (nodeOf s) (d + p.length) = true := by
  intro t
  induction t with
  | leaf n =>
    intro d c p h
    simp only [find_node_to_reduce_below_or_at] at h
    cases hc : c (.Leaf n) d
    · rw [hc] at h; simp at h
    · rw [hc] at h
      simp at h
      subst h
      exact ⟨.leaf n, by simp [subtreeAt], by simpa [nodeOf] using hc⟩
  | pair l r ihl ihr =>
    intro d c p h
    rw [find_pair_eq] at h
    cases hL : find_node_to_reduce_below_or_at l (d + 1) c with
    | some pl =>
      rw [hL] at h
      simp at h
      subst h
      obtain ⟨s, hs, hc⟩ := ihl (d + 1) c pl hL
      exact ⟨s, by simpa [subtreeAt] using hs, by
        have : d + (Direction.Left :: pl).length = (d + 1) + pl.length := by simp; omega
        rw [this]; exact hc⟩
    | none =>
      rw [hL] at h
      cases hR : find_node_to_reduce_below_or_at r (d + 1) c with
      | some pr =>
        rw [hR] at h
        simp at h
        subst h
        obtain ⟨s, hs, hc⟩ := ihr (d + 1) c pr hR
        exact ⟨s, by simpa [subtreeAt] using hs, by
          have : d + (Direction.Right :: pr).length = (d + 1) + pr.length := by simp; omega
          rw [this]; exact hc⟩
      | none =>
        rw [hR] at h
        cases hc : c .PairRoot d
        · rw [hc] at h; simp at h
        · rw [hc] at h
          simp at h
          subst h
          exact ⟨.pair l r, by simp [subtreeAt], by simpa [nodeOf] using hc⟩

theorem find_some_no_desc :
    ∀ (t : PTree) (d : Nat) (c : PairNode → Nat → Bool) (p : Path),
      find_node_to_reduce_below_or_at t d c = some p →
      ∀ (e : Path) (s : PTree), e ≠ [] → subtreeAt t (p ++ e) = some s →
        c (nodeOf s) (d + (p ++ e).length) = false := by
  intro t
  induction t with
  | leaf n =>
    intro d c p h e s he hq
    simp only [find_node_to_reduce_below_or_at] at h
    cases hc : c (.Leaf n) d
    · rw [hc] at h; simp at h
    · rw [hc] at h
      simp at h
      subst h
      cases e with
      | nil => exact absurd rfl he
      | cons d1 e' => cases d1 <;> simp [subtreeAt] at hq
  | pair l r ihl ihr =>
    intro d c p h e s he hq
    rw [find_pair_eq] at h
    cases hL : find_node_to_reduce_below_or_at l (d + 1) c with
    | some pl =>
      rw [hL] at h
      simp at h
      subst h
      have hlen : d + ((Direction.Left :: pl) ++ e).length = (d + 1) + (pl ++ e).length := by
        simp; omega
      rw [hlen]
      exact ihl (d + 1) c pl hL e s he (by simpa [subtreeAt] using hq)
    | none =>
      rw [hL] at h
      cases hR : find_node_to_reduce_below_or_at r (d + 1) c with
      | some pr =>
        rw [hR] at h
        simp at h
        subst h
        have hlen : d + ((Direction.Right :: pr) ++ e).length = (d + 1) + (pr ++ e).length := by
          simp; omega
        rw [hlen]
        exact ihr (d + 1) c pr hR e s he (by simpa [subtreeAt] using hq)
      | none =>
        rw [hR] at h
        cases hc : c .PairRoot d
        · rw [hc] at h; simp at h
        · rw [hc] at h
          simp at h
          subst h
          cases e with
          | nil => exact absurd rfl he
          | cons d1 e' =>
            have hlen : d + (([] : Path) ++ d1 :: e').length = (d + 1) + e'.length := by
              simp; omega
            rw [hlen]
            cases d1 with
            | Left => exact find_none_complete l (d + 1) c hL e' s (by simpa [subtreeAt] using hq)
            | Right => exact find_none_complete r (d + 1) c hR e' s (by simpa [subtreeAt] using hq)

/-- A node returned by the explode-candidate search always has two leaf
children: a pair child would be a strictly deeper candidate inside its
subtree, and the post-order search would have found it first. -/
theorem find_explode_leaves {t : PTree} {p : Path}
    (h : find_node_to_explode t = some p) :
    ∃ a b, subtreeAt t p = some (.pair (.leaf a) (.leaf b)) := by
  obtain ⟨s, hs, hc⟩ := find_some_sound t 0 explodeCriteria p h
  have hdepth : 4 ≤ p.length := by
    simp [explodeCriteria] at hc
    simpa using hc.1
  cases s with
  | leaf n => simp [nodeOf, explodeCriteria, PairNode.is_pair_root] at hc
  | pair x y =>
    have hx : subtreeAt t (p ++ [Direction.Left]) = some x := subtreeAt_child hs .Left
    have hy : subtreeAt t (p ++ [Direction.Right]) = some y := subtreeAt_child hs .Right
    cases x with
    | pair u v =>
      have := find_some_no_desc t 0 explodeCriteria p h [Direction.Left] (.pair u v)
        (by simp) hx
      simp [nodeOf, explodeCriteria, PairNode.is_pair_root] at this
      omega
    | leaf a =>
      cases y with
      | pair u v =>
        have := find_some_no_desc t 0 explodeCriteria p h [Direction.Right] (.pair u v)
          (by simp) hy
        simp [nodeOf, explodeCriteria, PairNode.is_pair_root] at this
        omega
      | leaf b => exact ⟨a, b, hs⟩

/-! ### Lemmas about `replaceAt`, tree shape, and the final descent -/

theorem replaceAt_some :
    ∀ (q : Path) (t u : PTree), subtreeAt t q = some u →
      ∀ s, ∃ t', replaceAt t q s = some t' := by
  intro q
  induction q with
  | nil => intro t u _ s; exact ⟨s, replaceAt_nil t s⟩
  | cons d q' ih =>
    intro t u hq s
    cases t with
    | leaf n => cases d <;> simp [subtreeAt] at hq
    | pair l r =>
      cases d with
      | Left =>
        obtain ⟨l', hl'⟩ := ih l u (by simpa [subtreeAt] using hq) s
        exact ⟨.pair l' r, by simp [replaceAt, hl']⟩
      | Right =>
        obtain ⟨r', hr'⟩ := ih r u (by simpa [subtreeAt] using hq) s
        exact ⟨.pair l r', by simp [replaceAt, hr']⟩

theorem replaceAt_leafSum :
    ∀ (q : Path) (t t' u s : PTree), replaceAt t q s = some t' →
      subtreeAt t q = some u → leafSum t' + leafSum u = leafSum t + leafSum s := by
  intro q
  induction q with
  | nil =>
    intro t t' u s hr hq
    simp [replaceAt] at hr
    simp [subtreeAt] at hq
    subst hr; subst hq
    omega
  | cons d q' ih =>
    intro t t' u s hr hq
    cases t with
    | leaf n => cases d <;> simp [subtreeAt] at hq
    | pair l r =>
      cases d with
      | Left =>
        simp only [replaceAt, Option.map_eq_some'] at hr
        obtain ⟨l', hl', ht'⟩ := hr
        subst ht'
        have := ih l l' u s hl' (by simpa [subtreeAt] using hq)
        simp [leafSum]
        omega
      | Right =>
        simp only [replaceAt, Option.map_eq_some'] at hr
        obtain ⟨r', hr', ht'⟩ := hr
        subst ht'
        have := ih r r' u s hr' (by simpa [subtreeAt] using hq)
        simp [leafSum]
        omega

theorem subtreeAt_replaceAt_diverge :
    ∀ (base : Path) (d1 d2 : Direction), d1 ≠ d2 →
      ∀ (t t' : PTree) (p' q' : Path) (s : PTree),
        replaceAt t (base ++ d1 :: p') s = some t' →
        subtreeAt t' (base ++ d2 :: q') = subtreeAt t (base ++ d2 :: q') := by
  intro base
  induction base with
  | nil =>
    intro d1 d2 hne t t' p' q' s hr
    cases t with
    | leaf n => cases d1 <;> simp [replaceAt] at hr
    | pair l r =>
      cases d1 <;> cases d2 <;> try exact absurd rfl hne
      · simp only [List.nil_append, replaceAt, Option.map_eq_some'] at hr
        obtain ⟨l', _, ht'⟩ := hr
        subst ht'
        simp [subtreeAt]
      · simp only [List.nil_append, replaceAt, Option.map_eq_some'] at hr
        obtain ⟨r', _, ht'⟩ := hr
        subst ht'
        simp [subtreeAt]
  | cons d base' ih =>
    intro d1 d2 hne t t' p' q' s hr
    cases t with
    | leaf n => cases d <;> simp [replaceAt] at hr
    | pair l r =>
      cases d with
      | Left =>
        simp only [List.cons_append, replaceAt, Option.map_eq_some'] at hr
        obtain ⟨l', hl', ht'⟩ := hr
        subst ht'
        simpa [subtreeAt] using ih d1 d2 hne l l' p' q' s hl'
      | Right =>
        simp only [List.cons_append, replaceAt, Option.map_eq_some'] at hr
        obtain ⟨r', hr', ht'⟩ := hr
        subst ht'
        simpa [subtreeAt] using ih d1 d2 hne r r' p' q' s hr'

/-- Same tree shape (same pair/leaf structure, leaf values ignored). -/
def sameShape : PTree → PTree → Bool
  | .leaf _, .leaf _ => true
  | .pair a b, .pair a' b' => sameShape a a' && sameShape b b'
  | _, _ => false

theorem sameShape_refl : ∀ t, sameShape t t = true := by
  intro t
  induction t with
  | leaf n => rfl
  | pair l r ihl ihr => simp [sameShape, ihl, ihr]

theorem sameShape_symm : ∀ t t', sameShape t t' = sameShape t' t := by
  intro t
  induction t with
  | leaf n => intro t'; cases t' <;> rfl
  | pair l r ihl ihr =>
    intro t'
    cases t' with
    | leaf m => rfl
    | pair l' r' => simp [sameShape, ihl, ihr]

theorem sameShape_replace_leaf :
    ∀ (q : Path) (t t' : PTree) (w v : Nat), subtreeAt t q = some (.leaf w) →
      replaceAt t q (.leaf v) = some t' → sameShape t t' = true := by
  intro q
  induction q with
  | nil =>
    intro t t' w v hq hr
    simp [subtreeAt] at hq
    simp [replaceAt] at hr
    subst hq; subst hr
    rfl
  | cons d q' ih =>
    intro t t' w v hq hr
    cases t with
    | leaf n => cases d <;> simp [subtreeAt] at hq
    | pair l r =>
      cases d with
      | Left =>
        simp only [replaceAt, Option.map_eq_some'] at hr
        obtain ⟨l', hl', ht'⟩ := hr
        subst ht'
        simp [sameShape, ih l l' w v (by simpa [subtreeAt] using hq) hl', sameShape_refl]
      | Right =>
        simp only [replaceAt, Option.map_eq_some'] at hr
        obtain ⟨r', hr', ht'⟩ := hr
        subst ht'
        simp [sameShape, ih r r' w v (by simpa [subtreeAt] using hq) hr', sameShape_refl]

theorem sameShape_subtreeAt_some :
    ∀ (p : Path) (t t' u : PTree), sameShape t t' = true → subtreeAt t p = some u →
      ∃ u', subtreeAt t' p = some u' ∧ sameShape u u' = true := by
  intro p
  induction p with
  | nil =>
    intro t t' u hs hq
    simp [subtreeAt] at hq
    subst hq
    exact ⟨t', subtreeAt_nil t', hs⟩
  | cons d p' ih =>
    intro t t' u hs hq
    cases t with
    | leaf n => cases d <;> simp [subtreeAt] at hq
    | pair l r =>
      cases t' with
      | leaf m => simp [sameShape] at hs
      | pair l' r' =>
        simp [sameShape] at hs
        cases d with
        | Left =>
          obtain ⟨u', h1, h2⟩ := ih l l' u hs.1 (by simpa [subtreeAt] using hq)
          exact ⟨u', by simpa [subtreeAt] using h1, h2⟩
        | Right =>
          obtain ⟨u', h1, h2⟩ := ih r r' u hs.2 (by simpa [subtreeAt] using hq)
          exact ⟨u', by simpa [subtreeAt] using h1, h2⟩

theorem sameShape_subtreeAt_none {p : Path} {t t' : PTree}
    (hs : sameShape t t' = true) (hq : subtreeAt t p = none) :
    subtreeAt t' p = none := by
  cases hq' : subtreeAt t' p with
  | none => rfl
  | some u' =>
    obtain ⟨u, h1, _⟩ := sameShape_subtreeAt_some p t' t u' (by rw [← sameShape_symm t t']; exact hs) hq'
    rw [h1] at hq
    cases hq

theorem descendPath_congr :
    ∀ (u u' : PTree) (d : Direction), sameShape u u' = true →
      descendPath u d = descendPath u' d := by
  intro u
  induction u with
  | leaf n =>
    intro u' d hs
    cases u' with
    | leaf m => rfl
    | pair a b => simp [sameShape] at hs
  | pair a b iha ihb =>
    intro u' d hs
    cases u' with
    | leaf m => simp [sameShape] at hs
    | pair a' b' =>
      simp [sameShape] at hs
      cases d with
      | Left => simp [descendPath, iha a' .Left hs.1]
      | Right => simp [descendPath, ihb b' .Right hs.2]

theorem specNearestTarget_congr {t t' : PTree} {p : Path} {direction : Direction}
    (hs : sameShape t t' = true) :
    specNearestTarget t p direction = specNearestTarget t' p direction := by
  unfold specNearestTarget
  cases hdw : p.reverse.dropWhile (fun d => d == direction) with
  | nil => rfl
  | cons c srev =>
    show (match subtreeAt t (srev.reverse ++ [direction]) with
          | some sub => some ((srev.reverse ++ [direction]) ++ descendPath sub direction.get_other)
          | none => none) =
        (match subtreeAt t' (srev.reverse ++ [direction]) with
          | some sub => some ((srev.reverse ++ [direction]) ++ descendPath sub direction.get_other)
          | none => none)
    cases hb : subtreeAt t (srev.reverse ++ [direction]) with
    | none => rw [sameShape_subtreeAt_none hs hb]
    | some sub =>
      obtain ⟨sub', h1, h2⟩ := sameShape_subtreeAt_some _ t t' sub hs hb
      rw [h1]
      simp only [Option.some.injEq]
      rw [descendPath_congr sub sub' direction.get_other h2]

theorem Direction.get_other_ne : ∀ d : Direction, d.get_other ≠ d := by
  intro d
  cases d <;> simp [Direction.get_other]

theorem Direction.eq_get_other_of_ne {c d : Direction} (h : c ≠ d) : c = d.get_other := by
  cases c <;> cases d <;> simp_all [Direction.get_other]

/-- Decomposition of a successful spec-side neighbour-target computation: the
node's path splits as `base ++ other :: trailing-direction-edges`, and the
target descends from `base ++ [direction]`. -/
theorem specNearestTarget_decomp {t : PTree} {p : Path} {direction : Direction} {tgt : Path}
    (h : specNearestTarget t p direction = some tgt) :
    ∃ base tail sub, p = base ++ direction.get_other :: tail ∧
      (∀ x ∈ tail, x = direction) ∧
      subtreeAt t (base ++ [direction]) = some sub ∧
      tgt = base ++ direction :: descendPath sub direction.get_other := by
  unfold specNearestTarget at h
  cases hdw : p.reverse.dropWhile (fun d => d == direction) with
  | nil => rw [hdw] at h; cases h
  | cons c srev =>
    rw [hdw] at h
    simp only at h
    cases hb : subtreeAt t (srev.reverse ++ [direction]) with
    | none => rw [hb] at h; cases h
    | some sub =>
      rw [hb] at h
      simp only [Option.some.injEq] at h
      have hc : c = direction.get_other := by
        apply Direction.eq_get_other_of_ne
        have hd := List.head?_dropWhile_not (fun d => d == direction) p.reverse
        rw [hdw] at hd
        simpa using hd
      set w := p.reverse.takeWhile (fun d => d == direction) with hw
      have hsplit : w ++ (c :: srev) = p.reverse := by
        rw [hw, ← hdw]; exact List.takeWhile_append_dropWhile _ _
      refine ⟨srev.reverse, w.reverse, sub, ?_, ?_, hb, ?_⟩
      · have hrev := congrArg List.reverse hsplit
        simp only [List.reverse_append, List.reverse_reverse, List.reverse_cons] at hrev
        rw [← hrev, hc]
        simp
      · intro x hx
        rw [List.mem_reverse, hw] at hx
        have := List.mem_takeWhile_imp hx
        simpa using this
      · rw [← h]
        simp

theorem descendPath_leaf_eq (n : Nat) (d : Direction) : descendPath (.leaf n) d = [] := by
  cases d <;> rfl

theorem append_singleton_ne (l : Path) (a : Direction) : l ++ [a] ≠ l := by
  intro hcon
  have := congrArg List.length hcon
  simp at this

theorem append_singleton_ne_append {l : Path} {a b : Direction} (h : a ≠ b) :
    l ++ [a] ≠ l ++ [b] := by
  intro hcon
  have h2 := List.append_cancel_left hcon
  simp at h2
  exact h h2

theorem get_child_pair {t : PTree} {p : Path} {l r : PTree}
    (h : subtreeAt t p = some (.pair l r)) (d : Direction) :
    get_child t p d = some (p ++ [d]) := by
  unfold get_child
  rw [h]

theorem isLeafAt_of_pair {t : PTree} {q : Path} {x y : PTree}
    (h : subtreeAt t q = some (.pair x y)) : isLeafAt t q = false := by
  unfold isLeafAt
  rw [h]

theorem isLeafAt_of_leaf {t : PTree} {q : Path} {m : Nat}
    (h : subtreeAt t q = some (.leaf m)) : isLeafAt t q = true := by
  unfold isLeafAt
  rw [h]

theorem rootlike_pair (t : PTree) (dir : Direction) (prev cursor : Path) (ls rs : PTree)
    (h : subtreeAt t cursor = some (.pair ls rs)) :
    have_found_root_like_node t dir prev cursor =
      (decide (prev ≠ cursor ++ [dir]) && ls.isPairRoot && rs.isPairRoot) := by
  unfold have_found_root_like_node
  rw [h]
  cases dir <;> rfl

theorem spec_nil (t : PTree) (direction : Direction) :
    specNearestTarget t [] direction = none := by
  simp [specNearestTarget]

theorem spec_snoc (t : PTree) (s : Path) (d : Direction) :
    specNearestTarget t (s ++ [d]) d = specNearestTarget t s d := by
  unfold specNearestTarget
  simp [List.dropWhile_cons]

theorem spec_snoc_other (t : PTree) (s : Path) (direction : Direction) :
    specNearestTarget t (s ++ [direction.get_other]) direction =
      match subtreeAt t (s ++ [direction]) with
      | some sub => some ((s ++ [direction]) ++ descendPath sub direction.get_other)
      | none => none := by
  unfold specNearestTarget
  simp [List.dropWhile_cons, Direction.get_other_ne]

theorem descendPath_leaf :
    ∀ (s : PTree) (d : Direction), ∃ m, subtreeAt s (descendPath s d) = some (.leaf m) := by
  intro s
  induction s with
  | leaf n => intro d; exact ⟨n, by cases d <;> simp [descendPath, subtreeAt]⟩
  | pair l r ihl ihr =>
    intro d
    cases d with
    | Left =>
      obtain ⟨m, hm⟩ := ihl .Left
      exact ⟨m, by simpa [descendPath, subtreeAt] using hm⟩
    | Right =>
      obtain ⟨m, hm⟩ := ihr .Right
      exact ⟨m, by simpa [descendPath, subtreeAt] using hm⟩


/-- The ascent loop of `get_leaf_in_relative_direction` computes exactly the
spec-side nearest-neighbour target, whenever the starting node addresses a
pair (as the exploding node always does).  Every prefix of a path addressing
a pair addresses a pair itself, which keeps the invariant through the
ascent. -/
theorem glird_loop_eq_spec (t : PTree) (direction : Direction) :
    ∀ (rprev : List Direction) (x y : PTree),
      subtreeAt t rprev.reverse = some (.pair x y) →
      glird_loop t direction rprev = specNearestTarget t rprev.reverse direction := by
  intro rprev
  induction rprev with
  | nil =>
    intro x y _
    simp [glird_loop, spec_nil]
  | cons e rest ih =>
    intro x y h
    have hrev : (e :: rest).reverse = rest.reverse ++ [e] := by simp
    rw [hrev] at h ⊢
    obtain ⟨ls, rs, hpar, hchild⟩ := subtreeAt_parent_pair h
    by_cases he : e = direction
    · -- came up through a `direction`-side edge: the loop ascends
      subst he
      rw [spec_snoc]
      rw [← ih ls rs hpar]
      simp only [glird_loop]
      rw [List.reverse_cons,
        rootlike_pair t e (rest.reverse ++ [e]) rest.reverse ls rs hpar,
        get_child_pair hpar e]
      simp [isLeafAt_of_pair h]
    · -- came up through the opposite edge: the loop stops here
      have he' : e = direction.get_other := Direction.eq_get_other_of_ne he
      subst he'
      rw [spec_snoc_other]
      simp only [glird_loop]
      rw [List.reverse_cons,
        rootlike_pair t direction (rest.reverse ++ [Direction.get_other direction])
          rest.reverse ls rs hpar,
        get_child_pair hpar direction]
      have hne : decide (rest.reverse ++ [direction.get_other] ≠
          rest.reverse ++ [direction]) = true := by
        simp only [decide_eq_true_eq]
        exact append_singleton_ne_append (Direction.get_other_ne direction)
      cases direction with
      | Left =>
        -- the directional (left) child is `ls`; we came up from `rs`
        have hrs : rs = .pair x y := by simpa [Direction.get_other] using hchild
        have hsub : subtreeAt t (rest.reverse ++ [Direction.Left]) = some ls :=
          subtreeAt_child hpar .Left
        cases ls with
        | pair u v =>
          simp only [PTree.isPairRoot, hrs, hne, Bool.and_true, Bool.true_and,
            Bool.and_self, if_true, reduceIte]
          rw [if_neg (append_singleton_ne_append (Ne.symm (Direction.get_other_ne .Left)))]
        | leaf m =>
          simp only [PTree.isPairRoot, Bool.and_false, Bool.false_and, Bool.and_true,
            if_false, reduceIte]
          rw [hsub]
          have : decide (rest.reverse ++ [Direction.Left] ≠ rest.reverse) = true := by
            simp only [decide_eq_true_eq]
            exact append_singleton_ne rest.reverse Direction.Left
          simp [this, isLeafAt_of_leaf hsub, descendPath_leaf_eq]
      | Right =>
        have hls : ls = .pair x y := by simpa [Direction.get_other] using hchild
        have hsub : subtreeAt t (rest.reverse ++ [Direction.Right]) = some rs :=
          subtreeAt_child hpar .Right
        cases rs with
        | pair u v =>
          simp only [PTree.isPairRoot, hls, hne, Bool.and_true, Bool.true_and,
            Bool.and_self, if_true, reduceIte]
          rw [if_neg (append_singleton_ne_append (Ne.symm (Direction.get_other_ne .Right)))]
        | leaf m =>
          simp only [PTree.isPairRoot, Bool.and_false, Bool.false_and, Bool.and_true,
            if_false, reduceIte]
          rw [hsub]
          have : decide (rest.reverse ++ [Direction.Right] ≠ rest.reverse) = true := by
            simp only [decide_eq_true_eq]
            exact append_singleton_ne rest.reverse Direction.Right
          simp [this, isLeafAt_of_leaf hsub, descendPath_leaf_eq]


/-- Full characterisation of `explode_in_relative_direction` on a node with a
leaf child on the exploded side: when the spec-side neighbour target exists,
that leaf gets the child's value added (and the call reports `true`); when it
does not, the tree is unchanged and the call reports `false` — never a
panic. -/
theorem eird_spec (t : PTree) (p : Path) (direction : Direction) (a : Nat) (x y : PTree)
    (hp : subtreeAt t p = some (.pair x y))
    (hchild : subtreeAt t (p ++ [direction]) = some (.leaf a)) :
    (specNearestTarget t p direction = none ∧
      explode_in_relative_direction t p direction = some (t, false)) ∨
    (∃ tgt m t', specNearestTarget t p direction = some tgt ∧
      subtreeAt t tgt = some (.leaf m) ∧
      replaceAt t tgt (.leaf (m + a)) = some t' ∧
      explode_in_relative_direction t p direction = some (t', true)) := by
  have hglird : get_leaf_in_relative_direction t p direction =
      specNearestTarget t p direction := by
    unfold get_leaf_in_relative_direction
    have hh := glird_loop_eq_spec t direction p.reverse x y (by simpa using hp)
    simpa using hh
  cases hspec : specNearestTarget t p direction with
  | none =>
    left
    refine ⟨rfl, ?_⟩
    simp only [explode_in_relative_direction, get_child_pair hp direction, hchild,
      hglird, hspec]
  | some tgt =>
    obtain ⟨base, tail, sub, hpdec, htail, hbsub, htgt⟩ := specNearestTarget_decomp hspec
    have hne : tgt ≠ p := by
      rw [htgt, hpdec]
      intro hcon
      have h2 := List.append_cancel_left hcon
      simp only [List.cons.injEq] at h2
      exact Direction.get_other_ne direction h2.1.symm
    obtain ⟨m, hm⟩ := descendPath_leaf sub direction.get_other
    have htgt_leaf : subtreeAt t tgt = some (.leaf m) := by
      rw [htgt]
      have hassoc : base ++ direction :: descendPath sub direction.get_other =
          (base ++ [direction]) ++ descendPath sub direction.get_other := by simp
      rw [hassoc, subtreeAt_append, hbsub]
      simpa using hm
    obtain ⟨t', ht'⟩ := replaceAt_some tgt t _ htgt_leaf (.leaf (m + a))
    right
    refine ⟨tgt, m, t', rfl, htgt_leaf, ht', ?_⟩
    simp only [explode_in_relative_direction, get_child_pair hp direction, hchild,
      hglird, hspec]
    rw [if_neg hne]
    simp [htgt_leaf, ht']


/-- One directional explode step: it always succeeds (no panic), does not
touch the exploding node's own subtree, preserves the tree shape, and adds the
carried value to the total leaf sum exactly when a neighbour target exists. -/
theorem eird_sum (t : PTree) (p : Path) (dir : Direction) (c : Nat) (x y : PTree)
    (hp : subtreeAt t p = some (.pair x y))
    (hchild : subtreeAt t (p ++ [dir]) = some (.leaf c)) :
    ∃ t1 flag, explode_in_relative_direction t p dir = some (t1, flag) ∧
      subtreeAt t1 p = subtreeAt t p ∧
      sameShape t t1 = true ∧
      leafSum t1 = leafSum t + (if specNearestTarget t p dir = none then 0 else c) := by
  rcases eird_spec t p dir c x y hp hchild with ⟨hspec, heq⟩ |
    ⟨tgt, m, t', hspec, htgt_leaf, ht', heq⟩
  · exact ⟨t, false, heq, rfl, sameShape_refl t, by rw [hspec]; simp⟩
  · obtain ⟨base, tail, sub, hpdec, htail, hbsub, htgtdec⟩ := specNearestTarget_decomp hspec
    have ht'' : replaceAt t (base ++ dir :: descendPath sub dir.get_other)
        (.leaf (m + c)) = some t' := by rw [← htgtdec]; exact ht'
    have hdiverge := subtreeAt_replaceAt_diverge base dir dir.get_other
      (Ne.symm (Direction.get_other_ne dir)) t t' _ tail _ ht''
    have hsubeq : subtreeAt t' p = subtreeAt t p := by rw [hpdec]; exact hdiverge
    have hshape := sameShape_replace_leaf tgt t t' m (m + c) htgt_leaf ht'
    have hsum := replaceAt_leafSum tgt t t' (.leaf m) (.leaf (m + c)) ht' htgt_leaf
    refine ⟨t', true, heq, hsubeq, hshape, ?_⟩
    rw [hspec]
    simp only [leafSum] at hsum
    simp
    omega

/-- The full explode branch of the `reduce` loop body on a pair of leaves:
it succeeds, and accounts for the leaf sum exactly — each of the two carried
values either reaches a neighbour leaf, or (when there is no leaf on that
side) is dropped. -/
theorem explode_action_spec (t : PTree) (p : Path) (a b : Nat)
    (h : subtreeAt t p = some (.pair (.leaf a) (.leaf b))) :
    ∃ t', explode_action t p = some t' ∧
      leafSum t' + (if specNearestTarget t p .Left = none then a else 0) +
        (if specNearestTarget t p .Right = none then b else 0) = leafSum t := by
  have hchildL : subtreeAt t (p ++ [Direction.Left]) = some (.leaf a) :=
    subtreeAt_child h .Left
  obtain ⟨t1, f1, heL, hsubeq1, hshape1, hsum1⟩ :=
    eird_sum t p .Left a (.leaf a) (.leaf b) h hchildL
  have hp1 : subtreeAt t1 p = some (.pair (.leaf a) (.leaf b)) := by
    rw [hsubeq1]; exact h
  have hchildR1 : subtreeAt t1 (p ++ [Direction.Right]) = some (.leaf b) :=
    subtreeAt_child hp1 .Right
  obtain ⟨t2, f2, heR, hsubeq2, hshape2, hsum2⟩ :=
    eird_sum t1 p .Right b (.leaf a) (.leaf b) hp1 hchildR1
  have hp2 : subtreeAt t2 p = some (.pair (.leaf a) (.leaf b)) := by
    rw [hsubeq2]; exact hp1
  have hspecR : specNearestTarget t1 p Direction.Right =
      specNearestTarget t p Direction.Right :=
    (specNearestTarget_congr hshape1).symm
  rw [hspecR] at hsum2
  obtain ⟨t3, ht3⟩ := replaceAt_some p t2 _ hp2 (.leaf 0)
  have hsum3 := replaceAt_leafSum p t2 t3 (.pair (.leaf a) (.leaf b)) (.leaf 0) ht3 hp2
  simp only [leafSum] at hsum3
  refine ⟨t3, ?_, ?_⟩
  · simp only [explode_action, heL, heR, hp2, ht3]
  · split_ifs at hsum1 hsum2 ⊢ <;> omega

/-- Inversion of a `reduceStep` that exploded. -/
theorem reduceStep_exploded_inv {t t' : PTree} {p : Path}
    (h : reduceStep t = .stepped (.exploded p) t') :
    find_node_to_explode t = some p ∧ explode_action t p = some t' := by
  cases he : find_node_to_explode t with
  | some q =>
    cases ha : explode_action t q with
    | some t2 =>
      have hh : reduceStep t = .stepped (.exploded q) t2 := by
        simp only [reduceStep, he, ha]
      rw [h] at hh
      simp only [StepOut.stepped.injEq, Action.exploded.injEq] at hh
      obtain ⟨hq, ht2⟩ := hh
      subst hq; subst ht2
      exact ⟨rfl, ha⟩
    | none =>
      have hh : reduceStep t = .panicked := by
        simp only [reduceStep, he, ha]
      rw [h] at hh
      cases hh
  | none =>
    cases hs : find_node_to_split t with
    | some q =>
      cases hn : split_node t q with
      | some t2 =>
        have hh : reduceStep t = .stepped (.didSplit q) t2 := by
          simp only [reduceStep, he, hs, hn]
        rw [h] at hh
        simp only [StepOut.stepped.injEq] at hh
        cases hh.1
      | none =>
        have hh : reduceStep t = .panicked := by
          simp only [reduceStep, he, hs, hn]
        rw [h] at hh
        cases hh
    | none =>
      have hh : reduceStep t = .done := by
        simp only [reduceStep, he, hs]
      rw [h] at hh
      cases hh

/-- Inversion of a `reduceStep` that split. -/
theorem reduceStep_didSplit_inv {t t' : PTree} {p : Path}
    (h : reduceStep t = .stepped (.didSplit p) t') :
    find_node_to_explode t = none ∧ find_node_to_split t = some p ∧
      split_node t p = some t' := by
  cases he : find_node_to_explode t with
  | some q =>
    cases ha : explode_action t q with
    | some t2 =>
      have hh : reduceStep t = .stepped (.exploded q) t2 := by
        simp only [reduceStep, he, ha]
      rw [h] at hh
      simp only [StepOut.stepped.injEq] at hh
      cases hh.1
    | none =>
      have hh : reduceStep t = .panicked := by
        simp only [reduceStep, he, ha]
      rw [h] at hh
      cases hh
  | none =>
    cases hs : find_node_to_split t with
    | some q =>
      cases hn : split_node t q with
      | some t2 =>
        have hh : reduceStep t = .stepped (.didSplit q) t2 := by
          simp only [reduceStep, he, hs, hn]
        rw [h] at hh
        simp only [StepOut.stepped.injEq, Action.didSplit.injEq] at hh
        obtain ⟨hq, ht2⟩ := hh
        subst hq; subst ht2
        exact ⟨rfl, rfl, hn⟩
      | none =>
        have hh : reduceStep t = .panicked := by
          simp only [reduceStep, he, hs, hn]
        rw [h] at hh
        cases hh
    | none =>
      have hh : reduceStep t = .done := by
        simp only [reduceStep, he, hs]
      rw [h] at hh
      cases hh

/-- Inversion of a `reduceStep` that found nothing to do. -/
theorem reduceStep_done_inv {t : PTree} (h : reduceStep t = .done) :
    find_node_to_explode t = none ∧ find_node_to_split t = none := by
  cases he : find_node_to_explode t with
  | some q =>
    cases ha : explode_action t q with
    | some t2 =>
      have hh : reduceStep t = .stepped (.exploded q) t2 := by
        simp only [reduceStep, he, ha]
      rw [h] at hh
      cases hh
    | none =>
      have hh : reduceStep t = .panicked := by
        simp only [reduceStep, he, ha]
      rw [h] at hh
      cases hh
  | none =>
    cases hs : find_node_to_split t with
    | some q =>
      cases hn : split_node t q with
      | some t2 =>
        have hh : reduceStep t = .stepped (.didSplit q) t2 := by
          simp only [reduceStep, he, hs, hn]
        rw [h] at hh
        cases hh
      | none =>
        have hh : reduceStep t = .panicked := by
          simp only [reduceStep, he, hs, hn]
        rw [h] at hh
        cases hh
    | none => exact ⟨rfl, rfl⟩

/-- When `reduce` returns, the tree it leaves behind has no explode candidate
and no split candidate. -/
theorem reduceFuel_final :
    ∀ (fuel : Nat) (t t' : PTree), reduceFuel fuel t = some t' →
      find_node_to_explode t' = none ∧ find_node_to_split t' = none := by
  intro fuel
  induction fuel with
  | zero => intro t t' h; cases h
  | succ f ih =>
    intro t t' h
    simp only [reduceFuel] at h
    cases hstep : reduceStep t with
    | done =>
      rw [hstep] at h
      simp only [Option.some.injEq] at h
      subst h
      exact reduceStep_done_inv hstep
    | panicked => rw [hstep] at h; cases h
    | stepped a t2 =>
      rw [hstep] at h
      exact ih t2 t' h


/-! ### Magnitude -/

theorem magnitude_loop_sum :
    ∀ (to_visit : List (Nat × PTree)) (total : Nat),
      magnitude_loop to_visit total =
        total + (to_visit.map (fun e => e.1 * magnitude_rec e.2)).sum := by
  intro to_visit total
  induction to_visit, total using magnitude_loop.induct with
  | case1 total => simp [magnitude_loop]
  | case2 n v rest total ih =>
    rw [magnitude_loop, ih]
    simp [magnitude_rec]
    omega
  | case3 n l r rest total ih =>
    rw [magnitude_loop, ih]
    simp only [List.map_cons, List.sum_cons, magnitude_rec]
    ring

theorem magnitude_loop_mut_state :
    ∀ (graph : PTree) (to_visit : List (Nat × PTree)) (total : Nat),
      (magnitude_loop_mut graph to_visit total).2 = graph := by
  intro graph to_visit total
  induction to_visit, total using magnitude_loop_mut.induct graph with
  | case1 total => rw [magnitude_loop_mut]
  | case2 total n v rest ih => rw [magnitude_loop_mut]; exact ih
  | case3 total n l r rest ih => rw [magnitude_loop_mut]; exact ih

theorem magnitude_loop_mut_fst :
    ∀ (graph : PTree) (to_visit : List (Nat × PTree)) (total : Nat),
      (magnitude_loop_mut graph to_visit total).1 = magnitude_loop to_visit total := by
  intro graph to_visit total
  induction to_visit, total using magnitude_loop_mut.induct graph with
  | case1 total => rw [magnitude_loop_mut, magnitude_loop]
  | case2 total n v rest ih => rw [magnitude_loop_mut, magnitude_loop]; exact ih
  | case3 total n l r rest ih => rw [magnitude_loop_mut, magnitude_loop]; exact ih


/-! ### Parser lemmas -/

theorem takeWhile_append_all {p : Char → Bool} :
    ∀ (ds rest : List Char), (∀ c ∈ ds, p c = true) →
      (∀ c, rest.head? = some c → p c = false) →
      (ds ++ rest).takeWhile p = ds ∧ (ds ++ rest).dropWhile p = rest := by
  intro ds
  induction ds with
  | nil =>
    intro rest _ hrest
    cases rest with
    | nil => simp
    | cons c cs =>
      have hc := hrest c rfl
      simp [List.takeWhile_cons, List.dropWhile_cons, hc]
  | cons d ds' ih =>
    intro rest hall hrest
    have hd := hall d (by simp)
    have hih := ih rest (fun c hc => hall c (by simp [hc])) hrest
    simp [List.takeWhile_cons, List.dropWhile_cons, hd, hih.1, hih.2]

theorem parse_leaf_sound {cs : List Char} {v : PTree} {rest : List Char}
    (h : parse_snailfish_problem_leaf cs = some (v, rest)) :
    ∃ ds, cs = ds ++ rest ∧ ds ≠ [] ∧ (∀ c ∈ ds, c.isDigit = true) ∧
      digitsToNat ds < 4294967296 ∧ v = .leaf (digitsToNat ds) := by
  unfold parse_snailfish_problem_leaf at h
  by_cases hemp : (cs.takeWhile Char.isDigit).isEmpty
  · rw [if_pos hemp] at h; cases h
  · rw [if_neg hemp] at h
    by_cases hlt : digitsToNat (cs.takeWhile Char.isDigit) < 4294967296
    · rw [if_pos hlt] at h
      simp only [Option.some.injEq, Prod.mk.injEq] at h
      obtain ⟨hv, hrest⟩ := h
      refine ⟨cs.takeWhile Char.isDigit, ?_, ?_, ?_, hlt, hv.symm⟩
      · rw [← hrest]
        exact (List.takeWhile_append_dropWhile _ _).symm
      · intro hcon
        rw [List.isEmpty_iff] at hemp
        exact hemp hcon
      · intro c hc
        exact List.mem_takeWhile_imp hc
    · rw [if_neg hlt] at h; cases h

theorem parse_leaf_complete (ds rest : List Char) (hne : ds ≠ [])
    (hdig : ∀ c ∈ ds, c.isDigit = true) (hbound : digitsToNat ds < 4294967296)
    (hrest : ∀ c, rest.head? = some c → c.isDigit = false) :
    parse_snailfish_problem_leaf (ds ++ rest) = some (.leaf (digitsToNat ds), rest) := by
  obtain ⟨htake, hdrop⟩ := takeWhile_append_all ds rest hdig hrest
  unfold parse_snailfish_problem_leaf
  rw [htake, hdrop]
  rw [if_neg (by rw [List.isEmpty_iff]; exact hne), if_pos hbound]

/-- Unfolding of the pair parser at positive fuel: the two inner `match`es of
the definition are exactly `parse_snailfish_value` at the reduced fuel. -/
theorem parse_pair_succ (fuel : Nat) (chunk : List Char) :
    parse_snailfish_problem_pair (fuel + 1) chunk =
      match chunk with
      | '[' :: rest =>
        match parse_snailfish_value fuel rest with
        | none => none
        | some (pair1, rem1) =>
          match rem1 with
          | ',' :: rest2 =>
            match parse_snailfish_value fuel rest2 with
            | none => none
            | some (pair2, rem2) =>
              match rem2 with
              | ']' :: rem3 => some (.pair pair1 pair2, rem3)
              | _ => none
          | _ => none
      | _ => none := rfl

theorem parse_pair_succ_bracket (fuel : Nat) (rest : List Char) :
    parse_snailfish_problem_pair (fuel + 1) ('[' :: rest) =
      match parse_snailfish_value fuel rest with
      | none => none
      | some (pair1, rem1) =>
        match rem1 with
        | ',' :: rest2 =>
          match parse_snailfish_value fuel rest2 with
          | none => none
          | some (pair2, rem2) =>
            match rem2 with
            | ']' :: rem3 => some (.pair pair1 pair2, rem3)
            | _ => none
        | _ => none := rfl

theorem parse_pair_sound :
    ∀ (fuel : Nat) (cs : List Char) (v : PTree) (rest : List Char),
      parse_snailfish_problem_pair fuel cs = some (v, rest) →
      ∃ a, cs = a ++ rest ∧ SpecValueB a ∧ a.head? = some '[' := by
  intro fuel
  induction fuel with
  | zero => intro cs v rest h; cases h
  | succ f ih =>
    have hval : ∀ (cs2 : List Char) (v2 : PTree) (rest2 : List Char),
        parse_snailfish_value f cs2 = some (v2, rest2) →
        ∃ a, cs2 = a ++ rest2 ∧ SpecValueB a := by
      intro cs2 v2 rest2 h2
      unfold parse_snailfish_value at h2
      cases hp : parse_snailfish_problem_pair f cs2 with
      | some res =>
        rw [hp] at h2
        simp only [Option.some.injEq] at h2
        subst h2
        obtain ⟨a, h1, h3, _⟩ := ih cs2 v2 rest2 hp
        exact ⟨a, h1, h3⟩
      | none =>
        rw [hp] at h2
        obtain ⟨ds, h1, hne, hdig, hbound, hv⟩ := parse_leaf_sound h2
        exact ⟨ds, h1, SpecValueB.int ds hne hdig hbound⟩
    intro cs v rest h
    rw [parse_pair_succ] at h
    split at h
    · rename_i rest0
      cases hv1 : parse_snailfish_value f rest0 with
      | none => simp only [hv1] at h; cases h
      | some pr1 =>
        obtain ⟨p1, rem1⟩ := pr1
        simp only [hv1] at h
        split at h
        · rename_i rest2
          cases hv2 : parse_snailfish_value f rest2 with
          | none => simp only [hv2] at h; cases h
          | some pr2 =>
            obtain ⟨p2, rem2⟩ := pr2
            simp only [hv2] at h
            split at h
            · rename_i rem3
              simp only [Option.some.injEq, Prod.mk.injEq] at h
              obtain ⟨hv, hrem⟩ := h
              obtain ⟨a1, he1, hs1⟩ := hval rest0 p1 (',' :: rest2) hv1
              obtain ⟨a2, he2, hs2⟩ := hval rest2 p2 (']' :: rem3) hv2
              refine ⟨'[' :: (a1 ++ ',' :: (a2 ++ [']'])), ?_, SpecValueB.pair a1 a2 hs1 hs2, rfl⟩
              rw [← hrem, he1, he2]
              simp
            · cases h
        · cases h
    · cases h

theorem parse_value_sound (fuel : Nat) (cs : List Char) (v : PTree) (rest : List Char)
    (h : parse_snailfish_value fuel cs = some (v, rest)) :
    ∃ a, cs = a ++ rest ∧ SpecValueB a := by
  unfold parse_snailfish_value at h
  cases hp : parse_snailfish_problem_pair fuel cs with
  | some res =>
    rw [hp] at h
    simp only [Option.some.injEq] at h
    subst h
    obtain ⟨a, h1, h3, _⟩ := parse_pair_sound fuel cs v rest hp
    exact ⟨a, h1, h3⟩
  | none =>
    rw [hp] at h
    obtain ⟨ds, h1, hne, hdig, hbound, hv⟩ := parse_leaf_sound h
    exact ⟨ds, h1, SpecValueB.int ds hne hdig hbound⟩


theorem parse_pair_nonbracket {fuel : Nat} {c : Char} {tail : List Char} (hc : c ≠ '[') :
    parse_snailfish_problem_pair (fuel + 1) (c :: tail) = none := by
  rw [parse_pair_succ]
  split
  · rename_i rest0 heq
    simp only [List.cons.injEq] at heq
    exact absurd heq.1 hc
  · rfl

theorem parse_value_complete :
    ∀ {a : List Char}, SpecValueB a →
      ∀ (fuel : Nat) (rest : List Char), a.length ≤ fuel →
        (∀ c, rest.head? = some c → c.isDigit = false) →
        ∃ v, parse_snailfish_value fuel (a ++ rest) = some (v, rest) ∧
          (a.head? = some '[' → parse_snailfish_problem_pair fuel (a ++ rest) = some (v, rest)) := by
  intro a hspec
  induction hspec with
  | int ds hne hdig hbound =>
    intro fuel rest hfuel hrest
    cases ds with
    | nil => exact absurd rfl hne
    | cons d0 ds' =>
      have hd0 : d0.isDigit = true := hdig d0 (by simp)
      have hd0ne : d0 ≠ '[' := by
        intro hcon
        rw [hcon] at hd0
        have hbr : ('[' : Char).isDigit = false := by decide
        rw [hbr] at hd0
        cases hd0
      cases fuel with
      | zero => simp at hfuel
      | succ f =>
        have hpf : parse_snailfish_problem_pair (f + 1) ((d0 :: ds') ++ rest) = none :=
          parse_pair_nonbracket hd0ne
        have hleaf := parse_leaf_complete (d0 :: ds') rest hne hdig hbound hrest
        refine ⟨.leaf (digitsToNat (d0 :: ds')), ?_, ?_⟩
        · simp only [parse_snailfish_value, hpf]
          exact hleaf
        · intro hhead
          simp only [List.head?_cons, Option.some.injEq] at hhead
          exact absurd hhead hd0ne
  | pair x y hx hy ihx ihy =>
    intro fuel rest hfuel hrest
    have hlen : ('[' :: (x ++ ',' :: (y ++ [']']))).length = x.length + y.length + 3 := by
      simp only [List.length_cons, List.length_append, List.length_nil]
      omega
    cases fuel with
    | zero => rw [hlen] at hfuel; omega
    | succ f =>
      have hfx : x.length ≤ f := by rw [hlen] at hfuel; omega
      have hfy : y.length ≤ f := by rw [hlen] at hfuel; omega
      have hcomma : ∀ c : Char, (',' :: (y ++ (']' :: rest))).head? = some c →
          c.isDigit = false := by
        intro c hc
        simp only [List.head?_cons, Option.some.injEq] at hc
        rw [← hc]
        decide
      have hbrk : ∀ c : Char, (']' :: rest).head? = some c → c.isDigit = false := by
        intro c hc
        simp only [List.head?_cons, Option.some.injEq] at hc
        rw [← hc]
        decide
      obtain ⟨v1, hv1, _⟩ := ihx f (',' :: (y ++ (']' :: rest))) hfx hcomma
      obtain ⟨v2, hv2, _⟩ := ihy f (']' :: rest) hfy hbrk
      have hlist : ('[' :: (x ++ ',' :: (y ++ [']']))) ++ rest =
          '[' :: (x ++ (',' :: (y ++ (']' :: rest)))) := by simp
      have hpair : parse_snailfish_problem_pair (f + 1)
          ('[' :: (x ++ (',' :: (y ++ (']' :: rest))))) = some (.pair v1 v2, rest) := by
        rw [parse_pair_succ_bracket]
        simp only [hv1, hv2]
      refine ⟨.pair v1 v2, ?_, ?_⟩
      · rw [hlist]
        simp only [parse_snailfish_value, hpair]
      · intro _
        rw [hlist]
        exact hpair

/-- A `SpecValueB` derivation whose word starts with `'['` must come from the
pair production. -/
theorem SpecValueB_bracket_pair {cs : List Char} (h : SpecValueB cs)
    (hh : cs.head? = some '[') : SpecPairExpr cs := by
  cases h with
  | int =>
    rename_i hne hdig hbound
    obtain ⟨tl, htl⟩ := List.head?_eq_some_iff.mp hh
    have hdg := hdig '[' (by rw [htl]; simp)
    have hbr : ('[' : Char).isDigit = false := by decide
    rw [hbr] at hdg
    cases hdg
  | pair x y hx hy => exact ⟨x, y, hx, hy, rfl⟩

/-- The program's parser accepts an input exactly when it is a complete pair
expression (with `u32`-representable integer literals) with nothing left
over. -/
theorem parse_problem_iff (cs : List Char) :
    (∃ v, parse_snailfish_problem cs = some v) ↔ SpecPairExpr cs := by
  constructor
  · rintro ⟨v, h⟩
    unfold parse_snailfish_problem at h
    cases hp : parse_snailfish_problem_pair (cs.length + 1) cs with
    | none => rw [hp] at h; cases h
    | some pr =>
      obtain ⟨p, rem⟩ := pr
      rw [hp] at h
      cases rem with
      | cons c rem' => simp at h
      | nil =>
        obtain ⟨a, hcs, hspec, hhead⟩ := parse_pair_sound _ cs p [] hp
        rw [List.append_nil] at hcs
        subst hcs
        exact SpecValueB_bracket_pair hspec hhead
  · rintro ⟨a, b, ha, hb, rfl⟩
    have hspec : SpecValueB ('[' :: (a ++ ',' :: (b ++ [']']))) := SpecValueB.pair a b ha hb
    obtain ⟨v, _, hpair⟩ := parse_value_complete hspec
      (('[' :: (a ++ ',' :: (b ++ [']']))).length + 1) []
      (by omega)
      (by intro c hc; cases hc)
    rw [List.append_nil] at hpair
    refine ⟨v, ?_⟩
    unfold parse_snailfish_problem
    rw [hpair rfl]


/-! ### Claim theorems -/

/-- C1 (counterexample): the candidate search does **not** return the first
match in pre-order (leftmost, shallowest-qualifying) order.  On the tree
`[[[[[[1,2],3],4],5],6],7]` the explode search returns the `PairRoot` at depth
5, although its parent at depth 4 also qualifies and precedes it in pre-order. -/
theorem claim_C1_counterexample :
    find_node_to_explode
        (.pair (.pair (.pair (.pair (.pair (.pair (.leaf 1) (.leaf 2)) (.leaf 3))
          (.leaf 4)) (.leaf 5)) (.leaf 6)) (.leaf 7)) =
      some [Direction.Left, Direction.Left, Direction.Left, Direction.Left,
        Direction.Left] ∧
    preorderFirstMatch
        (.pair (.pair (.pair (.pair (.pair (.pair (.leaf 1) (.leaf 2)) (.leaf 3))
          (.leaf 4)) (.leaf 5)) (.leaf 6)) (.leaf 7)) 0 explodeCriteria =
      some [Direction.Left, Direction.Left, Direction.Left, Direction.Left] ∧
    find_node_to_explode
        (.pair (.pair (.pair (.pair (.pair (.pair (.leaf 1) (.leaf 2)) (.leaf 3))
          (.leaf 4)) (.leaf 5)) (.leaf 6)) (.leaf 7)) ≠
      preorderFirstMatch
        (.pair (.pair (.pair (.pair (.pair (.pair (.leaf 1) (.leaf 2)) (.leaf 3))
          (.leaf 4)) (.leaf 5)) (.leaf 6)) (.leaf 7)) 0 explodeCriteria := by
  refine ⟨by decide, by decide, by decide⟩

/-- C1 (amended): for every tree and both candidate criteria, the search
explores the left child's subtree fully before the right child's subtree and
returns the first match in **post-order** (left subtree, right subtree, then
the node itself) — i.e. the leftmost but deepest-qualifying match; the node
itself is only chosen when no descendant matches. -/
theorem claim_C1_amended (t : PTree) :
    (∀ (d : Nat) (c : PairNode → Nat → Bool),
      find_node_to_reduce_below_or_at t d c = postorderFirstMatch t d c) ∧
    find_node_to_explode t = postorderFirstMatch t 0 explodeCriteria ∧
    find_node_to_split t = postorderFirstMatch t 0 splitCriteria :=
  ⟨fun d c => find_eq_postorderFirstMatch t d c,
    find_eq_postorderFirstMatch t 0 explodeCriteria,
    find_eq_postorderFirstMatch t 0 splitCriteria⟩

/-- C2: when a pair of two leaves explodes, each side's carry is added to the
leaf found by walking up to the first ancestor reachable via an edge from the
carry's side, then descending into that ancestor's opposite subtree as far as
possible towards the exploded pair (the in-order neighbour); when no such leaf
exists the carry is dropped and the call succeeds reporting `false` — not an
error. -/
theorem claim_C2_explode_neighbours (t : PTree) (p : Path) (a b : Nat)
    (h : subtreeAt t p = some (.pair (.leaf a) (.leaf b))) :
    ((specNearestTarget t p .Left = none ∧
        explode_in_relative_direction t p .Left = some (t, false)) ∨
      (∃ tgt m t', specNearestTarget t p .Left = some tgt ∧
        subtreeAt t tgt = some (.leaf m) ∧
        replaceAt t tgt (.leaf (m + a)) = some t' ∧
        explode_in_relative_direction t p .Left = some (t', true))) ∧
    ((specNearestTarget t p .Right = none ∧
        explode_in_relative_direction t p .Right = some (t, false)) ∨
      (∃ tgt m t', specNearestTarget t p .Right = some tgt ∧
        subtreeAt t tgt = some (.leaf m) ∧
        replaceAt t tgt (.leaf (m + b)) = some t' ∧
        explode_in_relative_direction t p .Right = some (t', true))) :=
  ⟨eird_spec t p .Left a (.leaf a) (.leaf b) h (subtreeAt_child h .Left),
    eird_spec t p .Right b (.leaf a) (.leaf b) h (subtreeAt_child h .Right)⟩

theorem claim_C2_witness :
    subtreeAt (.pair (.pair (.leaf 1) (.leaf 2)) (.leaf 9)) [Direction.Left] =
      some (.pair (.leaf 1) (.leaf 2)) ∧
    (((specNearestTarget (.pair (.pair (.leaf 1) (.leaf 2)) (.leaf 9))
          [Direction.Left] .Left = none ∧
        explode_in_relative_direction (.pair (.pair (.leaf 1) (.leaf 2)) (.leaf 9))
          [Direction.Left] .Left =
          some (.pair (.pair (.leaf 1) (.leaf 2)) (.leaf 9), false)) ∨
      (∃ tgt m t', specNearestTarget (.pair (.pair (.leaf 1) (.leaf 2)) (.leaf 9))
          [Direction.Left] .Left = some tgt ∧
        subtreeAt (.pair (.pair (.leaf 1) (.leaf 2)) (.leaf 9)) tgt =
          some (.leaf m) ∧
        replaceAt (.pair (.pair (.leaf 1) (.leaf 2)) (.leaf 9)) tgt
          (.leaf (m + 1)) = some t' ∧
        explode_in_relative_direction (.pair (.pair (.leaf 1) (.leaf 2)) (.leaf 9))
          [Direction.Left] .Left = some (t', true))) ∧
    ((specNearestTarget (.pair (.pair (.leaf 1) (.leaf 2)) (.leaf 9))
          [Direction.Left] .Right = none ∧
        explode_in_relative_direction (.pair (.pair (.leaf 1) (.leaf 2)) (.leaf 9))
          [Direction.Left] .Right =
          some (.pair (.pair (.leaf 1) (.leaf 2)) (.leaf 9), false)) ∨
      (∃ tgt m t', specNearestTarget (.pair (.pair (.leaf 1) (.leaf 2)) (.leaf 9))
          [Direction.Left] .Right = some tgt ∧
        subtreeAt (.pair (.pair (.leaf 1) (.leaf 2)) (.leaf 9)) tgt =
          some (.leaf m) ∧
        replaceAt (.pair (.pair (.leaf 1) (.leaf 2)) (.leaf 9)) tgt
          (.leaf (m + 2)) = some t' ∧
        explode_in_relative_direction (.pair (.pair (.leaf 1) (.leaf 2)) (.leaf 9))
          [Direction.Left] .Right = some (t', true)))) :=
  ⟨by decide,
    claim_C2_explode_neighbours (.pair (.pair (.leaf 1) (.leaf 2)) (.leaf 9))
      [Direction.Left] 1 2 (by decide)⟩

/-- C3 (counterexample): an explode step performed during reduction can
decrease the total leaf sum: exploding the leftmost pair of
`[[[[[1,2],3],4],5],6]` drops the left carry `1` off the edge of the tree
(sum 21 before, 20 after). -/
theorem claim_C3_counterexample :
    reduceStep
        (.pair (.pair (.pair (.pair (.pair (.leaf 1) (.leaf 2)) (.leaf 3))
          (.leaf 4)) (.leaf 5)) (.leaf 6)) =
      .stepped (.exploded [Direction.Left, Direction.Left, Direction.Left,
          Direction.Left])
        (.pair (.pair (.pair (.pair (.leaf 0) (.leaf 5)) (.leaf 4)) (.leaf 5))
          (.leaf 6)) ∧
    leafSum (.pair (.pair (.pair (.pair (.leaf 0) (.leaf 5)) (.leaf 4)) (.leaf 5))
        (.leaf 6)) ≠
      leafSum (.pair (.pair (.pair (.pair (.pair (.leaf 1) (.leaf 2)) (.leaf 3))
        (.leaf 4)) (.leaf 5)) (.leaf 6)) := by
  refine ⟨by decide, by decide⟩

/-- C3 (amended): every explode step performed during reduction preserves the
total leaf sum up to the carries dropped off the edges of the tree: the sum
after, plus the left value when no leaf lies to the left and the right value
when no leaf lies to the right, equals the sum before.  In particular the sum
is exactly preserved whenever both neighbours exist. -/
theorem claim_C3_amended (t t' : PTree) (p : Path)
    (h : reduceStep t = .stepped (.exploded p) t') :
    ∃ a b, subtreeAt t p = some (.pair (.leaf a) (.leaf b)) ∧
      leafSum t' + (if specNearestTarget t p .Left = none then a else 0) +
        (if specNearestTarget t p .Right = none then b else 0) = leafSum t := by
  obtain ⟨he, ha⟩ := reduceStep_exploded_inv h
  obtain ⟨a, b, hab⟩ := find_explode_leaves he
  obtain ⟨t2, ht2, hsum⟩ := explode_action_spec t p a b hab
  rw [ha] at ht2
  simp only [Option.some.injEq] at ht2
  subst ht2
  exact ⟨a, b, hab, hsum⟩

theorem claim_C3_amended_witness :
    reduceStep
        (.pair (.pair (.pair (.pair (.pair (.leaf 1) (.leaf 2)) (.leaf 3))
          (.leaf 4)) (.leaf 5)) (.leaf 6)) =
      .stepped (.exploded [Direction.Left, Direction.Left, Direction.Left,
          Direction.Left])
        (.pair (.pair (.pair (.pair (.leaf 0) (.leaf 5)) (.leaf 4)) (.leaf 5))
          (.leaf 6)) ∧
    (∃ a b, subtreeAt
        (.pair (.pair (.pair (.pair (.pair (.leaf 1) (.leaf 2)) (.leaf 3))
          (.leaf 4)) (.leaf 5)) (.leaf 6))
        [Direction.Left, Direction.Left, Direction.Left, Direction.Left] =
        some (.pair (.leaf a) (.leaf b)) ∧
      leafSum (.pair (.pair (.pair (.pair (.leaf 0) (.leaf 5)) (.leaf 4))
          (.leaf 5)) (.leaf 6)) +
        (if specNearestTarget
            (.pair (.pair (.pair (.pair (.pair (.leaf 1) (.leaf 2)) (.leaf 3))
              (.leaf 4)) (.leaf 5)) (.leaf 6))
            [Direction.Left, Direction.Left, Direction.Left, Direction.Left]
            .Left = none then a else 0) +
        (if specNearestTarget
            (.pair (.pair (.pair (.pair (.pair (.leaf 1) (.leaf 2)) (.leaf 3))
              (.leaf 4)) (.leaf 5)) (.leaf 6))
            [Direction.Left, Direction.Left, Direction.Left, Direction.Left]
            .Right = none then b else 0) =
        leafSum (.pair (.pair (.pair (.pair (.pair (.leaf 1) (.leaf 2)) (.leaf 3))
          (.leaf 4)) (.leaf 5)) (.leaf 6))) :=
  ⟨by decide,
    claim_C3_amended
      (.pair (.pair (.pair (.pair (.pair (.leaf 1) (.leaf 2)) (.leaf 3))
        (.leaf 4)) (.leaf 5)) (.leaf 6))
      (.pair (.pair (.pair (.pair (.leaf 0) (.leaf 5)) (.leaf 4)) (.leaf 5))
        (.leaf 6))
      [Direction.Left, Direction.Left, Direction.Left, Direction.Left]
      (by decide)⟩


/-- C4: if `reduce` returns, the resulting tree has no `PairRoot` at depth ≥ 5
relative to the root and no `LeafNode` holding a value ≥ 10 (indeed the loop
only exits once no `PairRoot` sits at depth ≥ 4 and no leaf is ≥ 10). -/
theorem claim_C4_reduced_form (fuel : Nat) (t t' : PTree)
    (h : reduceFuel fuel t = some t') :
    (∀ (q : Path) (x y : PTree), subtreeAt t' q = some (.pair x y) → ¬ 5 ≤ q.length) ∧
    (∀ (q : Path) (n : Nat), subtreeAt t' q = some (.leaf n) → n < 10) := by
  obtain ⟨he, hs⟩ := reduceFuel_final fuel t t' h
  constructor
  · intro q x y hq hlen
    have hc := find_none_complete t' 0 explodeCriteria he q _ hq
    simp [nodeOf, explodeCriteria, PairNode.is_pair_root] at hc
    omega
  · intro q n hq
    have hc := find_none_complete t' 0 splitCriteria hs q _ hq
    simp [nodeOf, splitCriteria] at hc
    omega

theorem claim_C4_witness :
    reduceFuel 1 (.pair (.leaf 1) (.leaf 2)) = some (.pair (.leaf 1) (.leaf 2)) ∧
    ((∀ (q : Path) (x y : PTree),
        subtreeAt (.pair (.leaf 1) (.leaf 2)) q = some (.pair x y) → ¬ 5 ≤ q.length) ∧
      (∀ (q : Path) (n : Nat),
        subtreeAt (.pair (.leaf 1) (.leaf 2)) q = some (.leaf n) → n < 10)) :=
  ⟨by decide, claim_C4_reduced_form 1 (.pair (.leaf 1) (.leaf 2))
    (.pair (.leaf 1) (.leaf 2)) (by decide)⟩

/-- C5: any node returned by the explode-candidate search has two children
that are both leaves, and therefore the full explode action on it (including
both directional explodes, whose internal-error branches fire on a non-leaf
child) cannot panic. -/
theorem claim_C5_explode_node_leaves (t : PTree) (p : Path)
    (h : find_node_to_explode t = some p) :
    ∃ a b, subtreeAt t p = some (.pair (.leaf a) (.leaf b)) ∧
      explode_action t p ≠ none := by
  obtain ⟨a, b, hab⟩ := find_explode_leaves h
  obtain ⟨t', ht', _⟩ := explode_action_spec t p a b hab
  refine ⟨a, b, hab, ?_⟩
  rw [ht']
  simp

theorem claim_C5_witness :
    find_node_to_explode
        (.pair (.pair (.pair (.pair (.pair (.leaf 1) (.leaf 2)) (.leaf 3))
          (.leaf 4)) (.leaf 5)) (.leaf 6)) =
      some [Direction.Left, Direction.Left, Direction.Left, Direction.Left] ∧
    (∃ a b, subtreeAt
        (.pair (.pair (.pair (.pair (.pair (.leaf 1) (.leaf 2)) (.leaf 3))
          (.leaf 4)) (.leaf 5)) (.leaf 6))
        [Direction.Left, Direction.Left, Direction.Left, Direction.Left] =
        some (.pair (.leaf a) (.leaf b)) ∧
      explode_action
        (.pair (.pair (.pair (.pair (.pair (.leaf 1) (.leaf 2)) (.leaf 3))
          (.leaf 4)) (.leaf 5)) (.leaf 6))
        [Direction.Left, Direction.Left, Direction.Left, Direction.Left] ≠ none) :=
  ⟨by decide,
    claim_C5_explode_node_leaves
      (.pair (.pair (.pair (.pair (.pair (.leaf 1) (.leaf 2)) (.leaf 3))
        (.leaf 4)) (.leaf 5)) (.leaf 6))
      [Direction.Left, Direction.Left, Direction.Left, Direction.Left] (by decide)⟩

/-- C6: splitting a leaf of value `n ≥ 10` produces the pair
`(n / 2, n - n / 2)` (floor and ceiling halves): the halves sum back to `n`,
are equal when `n` is even, and differ by one (left smaller) when `n` is odd;
`split_node` replaces the leaf with exactly that pair. -/
theorem claim_C6_split_values (n : Nat) (h : 10 ≤ n) :
    get_split_values n = (n / 2, n - n / 2) ∧
    (get_split_values n).1 + (get_split_values n).2 = n ∧
    (n % 2 = 0 → (get_split_values n).1 = (get_split_values n).2) ∧
    (n % 2 = 1 → (get_split_values n).1 = (get_split_values n).2 - 1) ∧
    (∀ (t : PTree) (p : Path), subtreeAt t p = some (.leaf n) →
      split_node t p = replaceAt t p (.pair (.leaf (n / 2)) (.leaf (n - n / 2)))) := by
  have hval : get_split_values n = (n / 2, n - n / 2) := by
    unfold get_split_values
    rcases Nat.mod_two_eq_zero_or_one n with hpar | hpar <;> rw [hpar] <;> simp <;> omega
  refine ⟨hval, ?_, ?_, ?_, ?_⟩
  · rw [hval]; simp; omega
  · intro hpar; rw [hval]; simp; omega
  · intro hpar; rw [hval]; simp; omega
  · intro t p hleaf
    simp only [split_node, hleaf, hval]

theorem claim_C6_witness :
    10 ≤ 11 ∧
    (get_split_values 11 = (11 / 2, 11 - 11 / 2) ∧
      (get_split_values 11).1 + (get_split_values 11).2 = 11 ∧
      (11 % 2 = 0 → (get_split_values 11).1 = (get_split_values 11).2) ∧
      (11 % 2 = 1 → (get_split_values 11).1 = (get_split_values 11).2 - 1) ∧
      (∀ (t : PTree) (p : Path), subtreeAt t p = some (.leaf 11) →
        split_node t p =
          replaceAt t p (.pair (.leaf (11 / 2)) (.leaf (11 - 11 / 2))))) :=
  ⟨by decide, claim_C6_split_values 11 (by decide)⟩

/-- C7: a split is performed by the reduction loop only when no explode
candidate exists anywhere in the tree at that moment; and after the split the
loop restarts, re-checking for an explode before any further split. -/
theorem claim_C7_split_only_without_explode (t t' : PTree) (p : Path)
    (h : reduceStep t = .stepped (.didSplit p) t') :
    find_node_to_explode t = none ∧ find_node_to_split t = some p ∧
      split_node t p = some t' ∧
      (∀ fuel : Nat, reduceFuel (fuel + 1) t = reduceFuel fuel t') := by
  obtain ⟨he, hs, hn⟩ := reduceStep_didSplit_inv h
  refine ⟨he, hs, hn, ?_⟩
  intro fuel
  simp only [reduceFuel, h]

theorem claim_C7_witness :
    reduceStep (.pair (.leaf 10) (.leaf 1)) =
      .stepped (.didSplit [Direction.Left])
        (.pair (.pair (.leaf 5) (.leaf 5)) (.leaf 1)) ∧
    (find_node_to_explode (.pair (.leaf 10) (.leaf 1)) = none ∧
      find_node_to_split (.pair (.leaf 10) (.leaf 1)) = some [Direction.Left] ∧
      split_node (.pair (.leaf 10) (.leaf 1)) [Direction.Left] =
        some (.pair (.pair (.leaf 5) (.leaf 5)) (.leaf 1)) ∧
      (∀ fuel : Nat, reduceFuel (fuel + 1) (.pair (.leaf 10) (.leaf 1)) =
        reduceFuel fuel (.pair (.pair (.leaf 5) (.leaf 5)) (.leaf 1)))) :=
  ⟨by decide,
    claim_C7_split_only_without_explode (.pair (.leaf 10) (.leaf 1))
      (.pair (.pair (.leaf 5) (.leaf 5)) (.leaf 1)) [Direction.Left] (by decide)⟩

/-- C8 (counterexample): the claim's grammar `Value ::= Integer | pair` admits
a bare integer as a complete expression, but the program's parser requires a
pair at top level: the line `5` matches the claimed grammar yet fails to
parse. -/
theorem claim_C8_counterexample :
    parse_snailfish_problem ['5'] = none ∧ SpecValue ['5'] :=
  ⟨by decide, SpecValue.int ['5'] (by decide) (by decide)⟩

/-- C8 (amended): parsing succeeds exactly when the line is a complete
expression of the **pair** production `"[" Value "," Value "]"` of the grammar
`Value ::= Integer | "[" Value "," Value "]"` with nothing left over, where
integer literals must moreover fit in `u32` (the leaf parser applies
`str::parse::<u32>`); bare integers at top level, malformed nesting, missing
commas, non-digits where digits are expected, out-of-range literals and
trailing characters all fail with a parse error. -/
theorem claim_C8_amended (cs : List Char) :
    (∃ v, parse_snailfish_problem cs = some v) ↔ SpecPairExpr cs :=
  parse_problem_iff cs

/-- C9: the worklist-based magnitude computation, carrying a multiplier from
the root (×3 descending left, ×2 descending right) and summing
multiplier × value over the leaves, returns the same integer as the recursive
reference definition. -/
theorem claim_C9_magnitude_refinement (t : PTree) : magnitude t = magnitude_rec t := by
  unfold magnitude
  rw [magnitude_loop_sum]
  simp

/-- C10: computing the magnitude leaves the mutably borrowed tree completely
unchanged (the loop performs only reads), so repeated calls on the same tree
return the same value each time. -/
theorem claim_C10_magnitude_pure (t : PTree) :
    (magnitude_mut t).2 = t ∧
    (magnitude_mut ((magnitude_mut t).2)).1 = (magnitude_mut t).1 ∧
    (magnitude_mut t).1 = magnitude t := by
  have hstate : (magnitude_mut t).2 = t := magnitude_loop_mut_state t [(1, t)] 0
  have hfst : (magnitude_mut t).1 = magnitude t := magnitude_loop_mut_fst t [(1, t)] 0
  exact ⟨hstate, by rw [hstate], hfst⟩

end Day18
